import Mathlib

/-!
# Verification of the code_nim diff-ingestion / line-mapping / review-state core

Shallow embedding of the Go sources of `mrnim94/code_nim`:

* `helper/checkCommentAndChangeCode_help.go`
  (`LooksLikeCommand`, `DiffLineMapping`, `BuildDiffSnippetAndLineMap`,
  `NearestMatchingLineIndex`)
* `handler/commentTypes_handler.go` (`ensureInlineReviewComments`: the
  anchor-correction / position-mapping step and the cap-and-dedup gate)
* the Bitbucket client's `ParseDiff`
* the review-state derivation (summary / bot-marker / base-commit-marker /
  LGTM-pause scan).

Go strings are modelled as `List Char`; Go `int` as `Int` (the inputs the
claims quantify over are far from 64-bit overflow, and `strconv.Atoi`'s
overflow error is not modelled).  `strings.TrimSpace` is modelled over the
ASCII whitespace class, which is what actually occurs in diff text.
-/

/-- Go strings are modelled as lists of characters. -/
abbrev Str := List Char

namespace CodeNim

/-- ASCII whitespace, the fragment of Go's `unicode.IsSpace` relevant here. -/
def isSpaceChar (c : Char) : Bool :=
  c = ' ' || c = '\t' || c = '\n' || c = '\r' || c = '\x0b' || c = '\x0c'

/-- Embeds `strings.TrimSpace`: drop whitespace on both ends. -/
def trimSpace (s : Str) : Str :=
  ((s.dropWhile isSpaceChar).reverse.dropWhile isSpaceChar).reverse

/-- Embeds `strings.HasPrefix`. -/
def hasPrefix (s pre : Str) : Bool := pre.isPrefixOf s

/-- Embeds `strings.Contains`: `needle` occurs contiguously in `hay`. -/
def containsSub (hay needle : Str) : Bool :=
  hay.tails.any (fun t => needle.isPrefixOf t)

/-- Embeds `strings.Split` with a one-character separator. -/
def splitOnChar (sep : Char) (s : Str) : List Str :=
  match s with
  | [] => [[]]
  | c :: rest =>
    let parts := splitOnChar sep rest
    if c = sep then [] :: parts
    else
      match parts with
      | [] => [[c]]
      | p :: ps => (c :: p) :: ps

/-- Truncate at the first character belonging to `set`
(`IndexAny` followed by the `left = left[:idx]` slice; when no such
character occurs Go keeps the whole string, as `takeWhile` does). -/
def takeUntilAny (set : List Char) (s : Str) : Str :=
  s.takeWhile (fun c => !set.contains c)

/-- Truncate at the first occurrence of one character (`strings.Index` + slice). -/
def takeUntilChar (sep : Char) (s : Str) : Str :=
  s.takeWhile (fun c => c ≠ sep)

/-- Embeds `strconv.Atoi` on an all-digit (optionally signed) string; `none` is Go's
error case (overflow is not modelled). -/
def atoi? (s : Str) : Option Int :=
  let digitsVal : Str → Option Nat := fun ds =>
    if ds = [] then none
    else if ds.all Char.isDigit then
      some (ds.foldl (fun acc c => acc * 10 + (c.toNat - '0'.toNat)) 0)
    else none
  match s with
  | '+' :: rest => (digitsVal rest).map Int.ofNat
  | '-' :: rest => (digitsVal rest).map (fun n => -(n : Int))
  | _ => (digitsVal s).map Int.ofNat

/-! ## helper.BuildDiffSnippetAndLineMap -/

/-- Embeds `helper.DiffLineMapping`: source and destination line of one diff line. -/
structure DiffLineMapping where
  fromLine : Int
  toLine : Int
deriving Repr, DecidableEq

/-- A hunk record as consumed by `BuildDiffSnippetAndLineMap`
(`h["header"]` and `h["lines"]`). -/
structure Hunk where
  header : Str
  lines : List Str
deriving Repr, DecidableEq

/-- Source-start parsing of `BuildDiffSnippetAndLineMap`: split the header on
`'-'`, truncate `parts[1]` at the first of `' '`, `','`, `'+'`, `'@'`, trim and
`Atoi`; any failure leaves the default `0`. -/
def parseSrcStart (header : Str) : Int :=
  match (splitOnChar '-' header).get? 1 with
  | none => 0
  | some left =>
    match atoi? (trimSpace (takeUntilAny [' ', ',', '+', '@'] left)) with
    | some v => v
    | none => 0

/-- Destination-start parsing of `BuildDiffSnippetAndLineMap`: split the header
on `'+'`, truncate `parts[1]` at the first of `' '`, `'@'`, then at the first
`','`, trim and `Atoi`; any failure leaves the default `0`. -/
def parseDestStart (header : Str) : Int :=
  match (splitOnChar '+' header).get? 1 with
  | none => 0
  | some right =>
    match atoi? (trimSpace (takeUntilChar ',' (takeUntilAny [' ', '@'] right))) with
    | some v => v
    | none => 0

/-- The per-line loop of `BuildDiffSnippetAndLineMap`: walk the hunk lines with
running source/destination counters.  A `'+'`-prefixed line emits
`{-1, dst}` and advances `dst`; a `'-'`-prefixed line emits `{src, -1}` and
advances `src`; anything else emits `{src, dst}` and advances both. -/
def buildLines (src dst : Int) : List Str → List DiffLineMapping
  | [] => []
  | ln :: rest =>
    if hasPrefix ln ['+'] then
      ⟨-1, dst⟩ :: buildLines src (dst + 1) rest
    else if hasPrefix ln ['-'] then
      ⟨src, -1⟩ :: buildLines (src + 1) dst rest
    else
      ⟨src, dst⟩ :: buildLines (src + 1) (dst + 1) rest

/-- Embeds `helper.BuildDiffSnippetAndLineMap`: flatten all hunk lines into the AI
snippet and build the index-aligned line map, per hunk starting the counters at
the parsed header starts. -/
def BuildDiffSnippetAndLineMap (hunks : List Hunk) : List Str × List DiffLineMapping :=
  (hunks.flatMap (fun h => h.lines),
   hunks.flatMap (fun h => buildLines (parseSrcStart h.header) (parseDestStart h.header) h.lines))

/-! ## helper.NearestMatchingLineIndex -/

/-- The inner `strip` closure: trim whitespace, drop a single leading `'+'` or
`'-'`, trim again. -/
def stripLine (s : Str) : Str :=
  match trimSpace s with
  | [] => []
  | c :: rest => if c = '+' || c = '-' then trimSpace rest else c :: rest

/-- The inner `match` closure: the stripped line at index `i` contains the
normalized anchor as a substring. -/
def matchAt (diffLines : List Str) (normAnchor : Str) (i : Nat) : Bool :=
  containsSub (stripLine (diffLines.getD i [])) normAnchor

/-- The expanding-radius `for` loop of `NearestMatchingLineIndex`: at each
radius check `hint - radius` first, then `hint + radius`; `fuel` counts the
remaining iterations (`radius < len(diffLines)`). -/
def radiusLoop (diffLines : List Str) (normAnchor : Str) (hint : Nat) :
    Nat → Nat → Int
  | _, 0 => -1
  | radius, fuel + 1 =>
    let n : Int := diffLines.length
    let l : Int := (hint : Int) - radius
    let r : Int := (hint : Int) + radius
    if (0 ≤ l && l < n) && matchAt diffLines normAnchor l.toNat then l
    else if (0 ≤ r && r < n) && matchAt diffLines normAnchor r.toNat then r
    else radiusLoop diffLines normAnchor hint (radius + 1) fuel

/-- The hint clamping of `NearestMatchingLineIndex`: negative hints become
`0`, hints past the end become `len - 1`. -/
def clampHint (hintIdx : Int) (n : Nat) : Nat :=
  if hintIdx < 0 then 0
  else if hintIdx ≥ (n : Int) then n - 1 else hintIdx.toNat

/-- Embeds `helper.NearestMatchingLineIndex`: clamp the hint into bounds, test it
first, then expand the radius outward; `-1` when the list is empty, the anchor
is empty, or nothing matches. -/
def NearestMatchingLineIndex (diffLines : List Str) (anchor : Str) (hintIdx : Int) : Int :=
  if diffLines.length = 0 || anchor = [] then -1
  else
    let normAnchor := stripLine (trimSpace anchor)
    let n := diffLines.length
    let hint : Nat := clampHint hintIdx n
    if matchAt diffLines normAnchor hint then (hint : Int)
    else radiusLoop diffLines normAnchor hint 1 (n - 1)

/-! ## handler.ensureInlineReviewComments: position resolution -/

/-- Embeds `model.ReviewComment` as used by the current handler (the repository's
newest model adds the `FromLine` field written by
`comments[i].FromLine = mapping.FromLine`). -/
structure ReviewComment where
  body : Str
  path : Str
  position : Int
  anchor : Str
  fromLine : Int
deriving Repr, DecidableEq

/-- The anchor-correction step (`if comments[i].Anchor != "" { ... }`): when
the anchor is non-empty and the nearest-match index is in `[0, len(lineMap))`,
override the position with `idx + 1`. -/
def applyAnchor (allLines : List Str) (lineMapLen : Nat) (c : ReviewComment) :
    ReviewComment :=
  if c.anchor ≠ [] then
    let idx := NearestMatchingLineIndex allLines c.anchor (c.position - 1)
    if 0 ≤ idx && idx < (lineMapLen : Int) then { c with position := idx + 1 } else c
  else c

/-- The mapping step of the resolver loop: out-of-range positions and positions
whose mapping entry has `ToLine ≤ 0` are zeroed out (discarded downstream);
otherwise the comment gets the file path, the destination line as position and
the source line as `fromLine`. -/
def mapPosition (filePath : Str) (lineMap : List DiffLineMapping)
    (c : ReviewComment) : ReviewComment :=
  if c.position ≤ 0 || c.position > (lineMap.length : Int) then
    { c with position := 0 }
  else
    let mapping := lineMap.getD (c.position - 1).toNat ⟨0, 0⟩
    if mapping.toLine ≤ 0 then { c with position := 0 }
    else { c with path := filePath, position := mapping.toLine,
                  fromLine := mapping.fromLine }

/-- One iteration of the `for i := range comments` loop: anchor correction then
position mapping. -/
def resolveComment (filePath : Str) (allLines : List Str)
    (lineMap : List DiffLineMapping) (c : ReviewComment) : ReviewComment :=
  mapPosition filePath lineMap (applyAnchor allLines lineMap.length c)

/-! ## handler.ensureInlineReviewComments: the comment gate -/

/-- Embeds the fixed prefix list of `helper.LooksLikeCommand`. -/
def commandIndicators : List Str :=
  ["$", "#!/bin/", "sudo ", "rm ", "ls ", "cd ", "echo ", "cat ", "touch ",
   "mkdir ", "curl ", "wget ", "python ", "go run", "npm ", "yarn ", "git ",
   "exit", "shutdown", "reboot"].map String.toList

/-- Embeds `helper.LooksLikeCommand`: the body starts with one of the fixed command
indicators (`body[:len(indicator)] == indicator`). -/
def LooksLikeCommand (body : Str) : Bool :=
  commandIndicators.any (fun ind => hasPrefix body ind)

/-- Decimal rendering of a Go `int` (the `%d` verb of `fmt.Sprintf`). -/
def intToStr (n : Int) : Str :=
  if n < 0 then '-' :: Nat.toDigits 10 (-n).toNat
  else Nat.toDigits 10 n.toNat

/-- The dedup key `fmt.Sprintf("%s:%d", c.Path, c.Position)`. -/
def commentKey (c : ReviewComment) : Str :=
  c.path ++ ':' :: intToStr c.position

/-- The posting loop of `ensureInlineReviewComments` (`for _, c := range
comments`), threading the set of existing keys (modelled as the list of keys of
the Go map) and the posted count: stop at the cap, skip empty bodies,
command-like bodies, missing locations and duplicate keys; record the key of
each accepted comment. -/
def gateLoop (remaining : Int) :
    List ReviewComment → List Str → Int → List ReviewComment
  | [], _, _ => []
  | c :: rest, existing, posted =>
    if remaining ≤ posted then []
    else if c.body = [] then gateLoop remaining rest existing posted
    else if LooksLikeCommand c.body then gateLoop remaining rest existing posted
    else if c.path = [] || c.position ≤ 0 then gateLoop remaining rest existing posted
    else if existing.contains (commentKey c) then gateLoop remaining rest existing posted
    else c :: gateLoop remaining rest (commentKey c :: existing) (posted + 1)

/-- The cap computation and gate of `ensureInlineReviewComments`: default the
configured caps (`100` / `200` when non-positive), return nothing when either
remaining budget is exhausted, otherwise run the posting loop with
`remaining = min(remainingByInline, remainingByTotal)`. -/
def ensureInlineGate (maxInlineCfg maxTotalCfg totalCommentCount : Int)
    (existing : List Str) (cands : List ReviewComment) : List ReviewComment :=
  let maxInline := if maxInlineCfg ≤ 0 then 100 else maxInlineCfg
  let maxTotal := if maxTotalCfg ≤ 0 then 200 else maxTotalCfg
  let remainingByInline := maxInline - (existing.length : Int)
  if remainingByInline ≤ 0 then []
  else
    let remainingByTotal := maxTotal - totalCommentCount
    if remainingByTotal ≤ 0 then []
    else gateLoop (min remainingByInline remainingByTotal) cands existing 0

/-! ## The Bitbucket client's ParseDiff

Go's `map[string]interface{}` records are mutated through shared references:
`currentHunk` aliases the last hunk map appended into the current file, and it
keeps aliasing it after a `diff --git` line replaces `currentFile`.  The
embedding makes the references explicit: hunk maps live in a heap indexed by
allocation order, files hold hunk ids, and the final result materializes every
reference into the dynamic-map view the handler consumes. -/

/-- A dynamic Go value as stored in `ParseDiff`'s `map[string]interface{}`
records: a `string`, a `[]string`, or a `[]map[string]interface{}`. -/
inductive GoVal where
  | vStr (s : Str)
  | vStrList (l : List Str)
  | vMapList (l : List (List (Str × GoVal)))
deriving Repr

/-- A `map[string]interface{}` record, as an association list. -/
abbrev GoMap := List (Str × GoVal)

/-- Lookup in a `GoMap`. -/
def mapLookup (m : GoMap) (k : Str) : Option GoVal :=
  (m.find? (fun kv => decide (kv.1 = k))).map (fun kv => kv.2)

/-- A parser-internal file record: its `"path"` value and the heap ids of the
maps aliased by its `"hunks"` slice. -/
structure PDFile where
  path : Str
  hunkIds : List Nat
deriving Repr, DecidableEq

/-- The mutable state of `ParseDiff`'s line loop. -/
structure PDState where
  heap : List Hunk
  files : List PDFile
  cur : Option PDFile
  curHunk : Option Nat
deriving Repr, DecidableEq

/-- Mutation of the hunk map aliased by `currentHunk`:
`currentHunk["lines"] = append(lines, line)`. -/
def heapAppendLine : List Hunk → Nat → Str → List Hunk
  | [], _, _ => []
  | h :: t, 0, ln => { h with lines := h.lines ++ [ln] } :: t
  | h :: t, n + 1, ln => h :: heapAppendLine t n ln

/-- One iteration of `ParseDiff`'s loop over the input lines.  Note that a
`diff --git` line flushes the current file but does NOT reset `currentHunk`, so
stray lines before the next `@@` still append to the previous file's last
hunk, exactly as the Go aliasing does. -/
def parseStep (s : PDState) (line : Str) : PDState :=
  if hasPrefix line ("diff --git".toList) then
    { s with files := s.files ++ s.cur.toList, cur := some ⟨[], []⟩ }
  else if hasPrefix line ("+++ b/".toList) then
    match s.cur with
    | some f => { s with cur := some { f with path := line.drop 6 } }
    | none => s
  else if hasPrefix line ("@@".toList) then
    match s.cur with
    | some f =>
      let id := s.heap.length
      { s with heap := s.heap ++ [⟨line, []⟩],
               cur := some { f with hunkIds := f.hunkIds ++ [id] },
               curHunk := some id }
    | none => s
  else
    match s.curHunk with
    | some id => { s with heap := heapAppendLine s.heap id line }
    | none => s

/-- Materialize one hunk heap cell into its `map[string]interface{}` view. -/
def materializeHunk (h : Hunk) : GoMap :=
  [("header".toList, .vStr h.header), ("lines".toList, .vStrList h.lines)]

/-- Materialize a file record: resolve every hunk reference through the heap. -/
def materializeFile (heap : List Hunk) (f : PDFile) : GoMap :=
  [("path".toList, .vStr f.path),
   ("hunks".toList, .vMapList (f.hunkIds.map (fun id => materializeHunk (heap.getD id ⟨[], []⟩))))]

/-- The Bitbucket client's `ParseDiff`: split the diff on newlines, run the
line loop, flush the trailing current file, and materialize the records. -/
def ParseDiff (diff : Str) : List GoMap :=
  let final := (splitOnChar '\n' diff).foldl parseStep ⟨[], [], none, none⟩
  (final.files ++ final.cur.toList).map (materializeFile final.heap)

/-! ## ReviewStateTracker (modelled from the spec)

The v0.15.0 handler that derives the per-PR review state — the definition
sites of `reviewBotMarker` and `shortHash`, the LGTM pause, the bot-marker
based inline-key scan and the base-commit-marker scan — is referenced by
`commentTypes_handler.go` but its file is not part of the available sources;
the definitions below are modelled from the specification's §4.4 contract. -/

/-- A previously posted comment as the tracker reads it. -/
structure RawComment where
  body : Str
  isInline : Bool
  path : Str
  toLine : Int
deriving Repr, DecidableEq

/-- Lowercasing, the ASCII fragment of `strings.ToLower`. -/
def toLowerStr (s : Str) : Str := s.map Char.toLower

/-- Case-insensitive substring test. -/
def containsCI (hay needle : Str) : Bool :=
  containsSub (toLowerStr hay) (toLowerStr needle)

/-- The derived per-PR review state. -/
structure ReviewState where
  hasSummary : Bool
  existingInlineKeys : List Str
  lastReviewedCommitHash : Option Str
  pauseRequested : Bool

/-- Modelled from the spec: a comment counts toward `hasSummary` when it is
non-inline, non-empty, and its lowercased trimmed body starts with the summary
heading or contains one of the fixed bolded section markers. -/
def isSummaryComment (c : RawComment) : Bool :=
  !c.isInline && c.body ≠ [] &&
    (let lc := toLowerStr (trimSpace c.body)
     hasPrefix lc ("## summary".toList) ||
       containsSub lc ("summary by ".toList) ||
       containsSub lc ("- **new features**".toList) ||
       containsSub lc ("- **bug fixes**".toList) ||
       containsSub lc ("- **documentation**".toList) ||
       containsSub lc ("- **refactor**".toList) ||
       containsSub lc ("- **performance**".toList) ||
       containsSub lc ("- **tests**".toList) ||
       containsSub lc ("- **chores**".toList))

/-- Modelled from the spec: a comment counts as an existing bot inline comment
only if it is inline AND its body contains the bot marker sentinel; its key is
`path + ":" + toLine`. -/
def isBotInlineComment (botMarker : Str) (c : RawComment) : Bool :=
  c.isInline && containsSub c.body botMarker

/-- The dedup key of an existing inline comment (`path + ":" + toLine`). -/
def rawCommentKey (c : RawComment) : Str :=
  c.path ++ ':' :: intToStr c.toLine

/-- Modelled from the spec: the keys of all existing bot inline comments. -/
def existingInlineKeysOf (comments : List RawComment) (botMarker : Str) : List Str :=
  (comments.filter (isBotInlineComment botMarker)).map rawCommentKey

/-- The suffix after the first occurrence of `pat`, or `none`. -/
def afterFirst (pat : Str) : Str → Option Str
  | [] => if pat = [] then some [] else none
  | c :: rest =>
    if pat.isPrefixOf (c :: rest) then some ((c :: rest).drop pat.length)
    else afterFirst pat rest

/-- The prefix before the first occurrence of `pat`, or `none`. -/
def beforeFirst (pat : Str) : Str → Option Str
  | [] => if pat = [] then some [] else none
  | c :: rest =>
    if pat.isPrefixOf (c :: rest) then some []
    else (beforeFirst pat rest).map (fun t => c :: t)

/-- Modelled from the spec: extract the commit hash between the base-commit
marker prefix and suffix, when the body carries one. -/
def extractBaseMarker (pre suf body : Str) : Option Str :=
  (afterFirst pre body).bind (beforeFirst suf)

/-- Modelled from the spec: scan non-inline comment bodies for the base-commit
marker; the last occurrence in scan order wins. -/
def lastReviewedCommitHashOf (comments : List RawComment) (pre suf : Str) :
    Option Str :=
  comments.foldl
    (fun acc c =>
      if !c.isInline then
        match extractBaseMarker pre suf c.body with
        | some h => some h
        | none => acc
      else acc)
    none

/-- Modelled from the spec: `pauseRequested` becomes true if any non-inline
comment without the bot marker contains the case-insensitive substring
"lgtm". -/
def pauseRequestedOf (comments : List RawComment) (botMarker : Str) : Bool :=
  comments.any (fun c =>
    !c.isInline && !containsSub c.body botMarker && containsCI c.body ("lgtm".toList))

/-- Modelled from the spec: `ReviewStateTracker.deriveState`. -/
def deriveState (comments : List RawComment) (botMarker pre suf : Str) :
    ReviewState :=
  { hasSummary := comments.any isSummaryComment
    existingInlineKeys := existingInlineKeysOf comments botMarker
    lastReviewedCommitHash := lastReviewedCommitHashOf comments pre suf
    pauseRequested := pauseRequestedOf comments botMarker }

/-- Modelled from the spec: the run posts a summary only when the PR is not
paused and no summary exists yet. -/
def runPostsSummary (st : ReviewState) : Bool :=
  !st.pauseRequested && !st.hasSummary

/-- Modelled from the spec: the run attempts the inline review only when the
PR is not paused and no inline review exists yet. -/
def runPostsInline (st : ReviewState) (hasInlineAlready : Bool) : Bool :=
  !st.pauseRequested && !hasInlineAlready

/-! ## Spec-side observation functions

These definitions follow the specification's wording; the theorems below
compare the source-translated functions against them. -/

/-- A diff line advances the source counter when it is deleted or context,
i.e. not `'+'`-prefixed. -/
def advancesSrc (ln : Str) : Bool := !(hasPrefix ln ['+'])

/-- A diff line advances the destination counter when it is added or context,
i.e. `'+'`-prefixed or not `'-'`-prefixed. -/
def advancesDst (ln : Str) : Bool := hasPrefix ln ['+'] || !(hasPrefix ln ['-'])

/-- The mapping entry the spec prescribes for the `k`-th line of a hunk whose
counters started at `s`/`d`: added lines carry `{-1, dst}`, deleted lines
`{src, -1}`, context lines `{src, dst}`, with `src`/`dst` advanced by the
preceding lines according to their kind. -/
def specEntry (s d : Int) (lines : List Str) (k : Nat) : DiffLineMapping :=
  let ln := lines.getD k []
  let src := s + ((lines.take k).countP (fun l => advancesSrc l) : Int)
  let dst := d + ((lines.take k).countP (fun l => advancesDst l) : Int)
  if hasPrefix ln ['+'] then ⟨-1, dst⟩
  else if hasPrefix ln ['-'] then ⟨src, -1⟩
  else ⟨src, dst⟩

/-- The normalized anchor (`strip(TrimSpace(anchor))`). -/
def normAnchorOf (anchor : Str) : Str := stripLine (trimSpace anchor)

/-- The search order the spec describes for the anchor search: the clamped
hint first, then `hint-1, hint+1, hint-2, hint+2, …` up to radius `n-1`. -/
def specSearchOrder (n hint : Nat) : List Int :=
  (hint : Int) :: (List.range' 1 (n - 1)).flatMap
    (fun r => [(hint : Int) - (r : Int), (hint : Int) + (r : Int)])

/-- First index in a candidate order that is in bounds and whose line matches
the normalized anchor; `-1` when the order is exhausted. -/
def firstMatchIdx (diffLines : List Str) (normAnchor : Str) : List Int → Int
  | [] => -1
  | i :: rest =>
    if (0 ≤ i && i < (diffLines.length : Int)) && matchAt diffLines normAnchor i.toNat then i
    else firstMatchIdx diffLines normAnchor rest

/-! ## Helper lemmas -/

theorem buildLines_length (lines : List Str) :
    ∀ s d : Int, (buildLines s d lines).length = lines.length := by
  induction lines with
  | nil => intro s d; rfl
  | cons ln rest ih =>
    intro s d
    unfold buildLines
    by_cases h1 : hasPrefix ln ['+'] = true
    · simp [h1, ih]
    · by_cases h2 : hasPrefix ln ['-'] = true
      · simp [h1, h2, ih]
      · simp [h1, h2, ih]

theorem buildLines_get? (lines : List Str) :
    ∀ (s d : Int) (k : Nat), k < lines.length →
      (buildLines s d lines).get? k = some (specEntry s d lines k) := by
  induction lines with
  | nil => intro s d k hk; simp at hk
  | cons ln rest ih =>
    intro s d k hk
    match k with
    | 0 =>
      unfold buildLines specEntry
      by_cases h1 : hasPrefix ln ['+'] = true
      · simp [h1]
      · by_cases h2 : hasPrefix ln ['-'] = true
        · simp [h1, h2]
        · simp [h1, h2]
    | Nat.succ k =>
      have hk' : k < rest.length := by simpa using hk
      have step : ∀ s' d' : Int,
          specEntry s' d' (ln :: rest) (k + 1)
            = specEntry (s' + if advancesSrc ln then 1 else 0)
                (d' + if advancesDst ln then 1 else 0) rest k := by
        intro s' d'
        unfold specEntry
        simp [List.countP_cons, advancesSrc, advancesDst]
        split_ifs <;> simp [DiffLineMapping.mk.injEq] <;> ring_nf <;> simp
      rw [step]
      unfold buildLines
      by_cases h1 : hasPrefix ln ['+'] = true
      · simp only [h1, if_true, List.get?_cons_succ, advancesSrc, advancesDst]
        simpa [advancesSrc, advancesDst, h1] using ih _ _ _ hk'
      · by_cases h2 : hasPrefix ln ['-'] = true
        · simp only [h1, h2, if_true, if_false, Bool.false_eq_true,
            List.get?_cons_succ]
          simpa [advancesSrc, advancesDst, h1, h2] using ih _ _ _ hk'
        · simp only [h1, h2, if_true, if_false, Bool.false_eq_true,
            List.get?_cons_succ]
          simpa [advancesSrc, advancesDst, h1, h2] using ih _ _ _ hk'

theorem hasPrefix_minus_not_plus {ln : Str} (h : hasPrefix ln ['-'] = true) :
    hasPrefix ln ['+'] = false := by
  cases ln with
  | nil => simp [hasPrefix, List.isPrefixOf] at h
  | cons c rest =>
    simp [hasPrefix, List.isPrefixOf] at h ⊢
    subst h
    decide

theorem mapPosition_of_get? (filePath : Str) (lineMap : List DiffLineMapping)
    (c : ReviewComment) (entry : DiffLineMapping)
    (h1 : 1 ≤ c.position) (h2 : c.position ≤ (lineMap.length : Int))
    (hget : lineMap.get? (c.position - 1).toNat = some entry) :
    mapPosition filePath lineMap c
      = if entry.toLine ≤ 0 then { c with position := 0 }
        else { c with path := filePath, position := entry.toLine,
                      fromLine := entry.fromLine } := by
  unfold mapPosition
  have hcond : (decide (c.position ≤ 0) || decide (c.position > (lineMap.length : Int))) = false := by
    simp only [Bool.or_eq_false_iff, decide_eq_false_iff_not, not_le, not_lt]
    omega
  have hD : lineMap.getD (c.position - 1).toNat ⟨0, 0⟩ = entry := by
    rw [List.getD_eq_getElem?_getD, ← List.get?_eq_getElem?, hget]
    rfl
  rw [hcond]
  simp only [Bool.false_eq_true, if_false, hD]

theorem gateLoop_mem_props (remaining : Int) (cands : List ReviewComment) :
    ∀ (existing : List Str) (posted : Int) (c : ReviewComment),
      c ∈ gateLoop remaining cands existing posted →
      c.body ≠ [] ∧ LooksLikeCommand c.body = false ∧ c.path ≠ [] ∧ 0 < c.position
        ∧ commentKey c ∉ existing := by
  induction cands with
  | nil => intro ex p c h; simp [gateLoop] at h
  | cons cand rest ih =>
    intro ex p c h
    unfold gateLoop at h
    split_ifs at h with h1 h2 h3 h4 h5
    · simp at h
    · exact ih ex p c h
    · exact ih ex p c h
    · exact ih ex p c h
    · exact ih ex p c h
    · rcases List.mem_cons.mp h with hc | hc
      · subst hc
        simp only [Bool.or_eq_true, decide_eq_true_eq, not_or] at h4
        refine ⟨h2, by simpa using h3, h4.1, by omega, ?_⟩
        simpa using h5
      · have := ih (commentKey cand :: ex) (p + 1) c hc
        exact ⟨this.1, this.2.1, this.2.2.1, this.2.2.2.1,
          fun hm => this.2.2.2.2 (List.mem_cons_of_mem _ hm)⟩

theorem gateLoop_sublist (remaining : Int) (cands : List ReviewComment) :
    ∀ (existing : List Str) (posted : Int),
      (gateLoop remaining cands existing posted).Sublist cands := by
  induction cands with
  | nil => intro ex p; simp [gateLoop]
  | cons cand rest ih =>
    intro ex p
    unfold gateLoop
    split_ifs with h1 h2 h3 h4 h5
    · exact List.nil_sublist _
    · exact (ih ex p).cons _
    · exact (ih ex p).cons _
    · exact (ih ex p).cons _
    · exact (ih ex p).cons _
    · exact (ih _ _).cons₂ _

theorem gateLoop_length (remaining : Int) (cands : List ReviewComment) :
    ∀ (existing : List Str) (posted : Int),
      (gateLoop remaining cands existing posted).length ≤ (remaining - posted).toNat := by
  induction cands with
  | nil => intro ex p; simp [gateLoop]
  | cons cand rest ih =>
    intro ex p
    unfold gateLoop
    split_ifs with h1 h2 h3 h4 h5
    · simp
    · exact ih ex p
    · exact ih ex p
    · exact ih ex p
    · exact ih ex p
    · have := ih (commentKey cand :: ex) (p + 1)
      simp only [List.length_cons]
      omega

theorem gateLoop_keys_nodup (remaining : Int) (cands : List ReviewComment) :
    ∀ (existing : List Str) (posted : Int),
      ((gateLoop remaining cands existing posted).map commentKey).Nodup := by
  induction cands with
  | nil => intro ex p; simp [gateLoop]
  | cons cand rest ih =>
    intro ex p
    unfold gateLoop
    split_ifs with h1 h2 h3 h4 h5
    · simp
    · exact ih ex p
    · exact ih ex p
    · exact ih ex p
    · exact ih ex p
    · simp only [List.map_cons, List.nodup_cons]
      refine ⟨?_, ih _ _⟩
      intro hmem
      rcases List.mem_map.mp hmem with ⟨c', hc', hkey⟩
      have := (gateLoop_mem_props remaining rest (commentKey cand :: ex) (p + 1) c' hc').2.2.2.2
      exact this (by simp [hkey])

theorem clampHint_lt (hintIdx : Int) (n : Nat) (hn : 0 < n) : clampHint hintIdx n < n := by
  unfold clampHint
  split_ifs <;> omega

theorem radiusLoop_eq_firstMatch (diffLines : List Str) (normAnchor : Str) (hint : Nat) :
    ∀ (fuel radius : Nat),
      radiusLoop diffLines normAnchor hint radius fuel
        = firstMatchIdx diffLines normAnchor
            ((List.range' radius fuel).flatMap
              (fun r => [(hint : Int) - (r : Int), (hint : Int) + (r : Int)])) := by
  intro fuel
  induction fuel with
  | zero => intro radius; simp [radiusLoop, firstMatchIdx]
  | succ fuel ih =>
    intro radius
    have hr : List.range' radius (fuel + 1) = radius :: List.range' (radius + 1) fuel := by
      simp [List.range'_succ]
    rw [hr]
    simp only [radiusLoop, List.flatMap_cons, List.cons_append, List.nil_append, firstMatchIdx]
    split_ifs <;> (try rfl) <;> (rw [ih]; simp [List.flatMap])

theorem firstMatchIdx_neg_one_iff (diffLines : List Str) (normAnchor : Str) :
    ∀ order : List Int,
      firstMatchIdx diffLines normAnchor order = -1 ↔
        ∀ i ∈ order,
          ((0 ≤ i && i < (diffLines.length : Int))
            && matchAt diffLines normAnchor i.toNat) = false := by
  intro order
  induction order with
  | nil => simp [firstMatchIdx]
  | cons j rest ih =>
    simp only [firstMatchIdx]
    split_ifs with h
    · have h0 : 0 ≤ j := by
        have := h
        simp only [Bool.and_eq_true, decide_eq_true_eq] at this
        exact this.1.1
      constructor
      · intro hj; omega
      · intro hall
        exfalso
        have := hall j (List.mem_cons_self j rest)
        rw [h] at this
        exact Bool.true_eq_false.mp this
    · rw [ih]
      constructor
      · intro hall i hi
        rcases List.mem_cons.mp hi with hij | hir
        · subst hij
          simpa using h
        · exact hall i hir
      · intro hall i hi
        exact hall i (List.mem_cons_of_mem j hi)

theorem firstMatchIdx_found (diffLines : List Str) (normAnchor : Str) :
    ∀ (order : List Int) (i : Int),
      firstMatchIdx diffLines normAnchor order = i → 0 ≤ i →
      ((0 ≤ i && i < (diffLines.length : Int))
        && matchAt diffLines normAnchor i.toNat) = true := by
  intro order
  induction order with
  | nil =>
    intro i hi h0
    simp only [firstMatchIdx] at hi
    omega
  | cons j rest ih =>
    intro i hi h0
    simp only [firstMatchIdx] at hi
    split_ifs at hi with h
    · subst hi; exact h
    · exact ih i hi h0

theorem mem_specSearchOrder {n hint i : Nat} (hi : i < n) (hh : hint < n) :
    (i : Int) ∈ specSearchOrder n hint := by
  unfold specSearchOrder
  rcases Nat.lt_trichotomy i hint with hlt | heq | hgt
  · refine List.mem_cons_of_mem _ (List.mem_flatMap.mpr ⟨hint - i, ?_, ?_⟩)
    · rw [List.mem_range'_1]
      omega
    · simp only [List.mem_cons, List.not_mem_nil, or_false]
      left
      omega
  · subst heq
    exact List.mem_cons_self _ _
  · refine List.mem_cons_of_mem _ (List.mem_flatMap.mpr ⟨i - hint, ?_, ?_⟩)
    · rw [List.mem_range'_1]
      omega
    · simp only [List.mem_cons, List.not_mem_nil, or_false]
      right
      omega

theorem nearest_eq_firstMatch (diffLines : List Str) (anchor : Str) (hintIdx : Int)
    (hdl : diffLines ≠ []) (hanchor : anchor ≠ []) :
    NearestMatchingLineIndex diffLines anchor hintIdx
      = firstMatchIdx diffLines (normAnchorOf anchor)
          (specSearchOrder diffLines.length (clampHint hintIdx diffLines.length)) := by
  have hn : 0 < diffLines.length := List.length_pos.mpr hdl
  have hcond : (decide (diffLines.length = 0) || decide (anchor = [])) = false := by
    simp [hdl, hanchor]
  have hhint := clampHint_lt hintIdx diffLines.length hn
  simp only [NearestMatchingLineIndex, hcond, Bool.false_eq_true, if_false,
    specSearchOrder, firstMatchIdx, normAnchorOf]
  have hbound : (0 ≤ ((clampHint hintIdx diffLines.length : Nat) : Int)
      && ((clampHint hintIdx diffLines.length : Nat) : Int) < (diffLines.length : Int)) = true := by
    simp only [Bool.and_eq_true, decide_eq_true_eq]
    constructor
    · positivity
    · exact_mod_cast hhint
  rw [hbound]
  simp only [Bool.true_and]
  have htoNat : (((clampHint hintIdx diffLines.length : Nat) : Int)).toNat
      = clampHint hintIdx diffLines.length := by omega
  rw [htoNat]
  split_ifs with h
  · rfl
  · exact radiusLoop_eq_firstMatch diffLines (stripLine (trimSpace anchor))
      (clampHint hintIdx diffLines.length) (diffLines.length - 1) 1


theorem lastReviewedFold_or (pre suf : Str) :
    ∀ (comments : List RawComment) (acc : Option Str),
      comments.foldl
          (fun acc c =>
            if !c.isInline then
              match extractBaseMarker pre suf c.body with
              | some h => some h
              | none => acc
            else acc)
          acc
        = (((comments.filter (fun c => !c.isInline)).filterMap
              (fun c => extractBaseMarker pre suf c.body)).getLast?).or acc := by
  intro comments
  induction comments with
  | nil => intro acc; simp
  | cons c rest ih =>
    intro acc
    simp only [List.foldl_cons, List.filter_cons]
    by_cases hc : (!c.isInline) = true
    · rw [if_pos hc]
      cases hx : extractBaseMarker pre suf c.body with
      | none =>
        simp only [hc, if_true, List.filterMap_cons, hx]
        rw [ih acc]
      | some h =>
        simp only [hc, if_true, List.filterMap_cons, hx]
        rw [ih (some h)]
        cases hE : (rest.filter (fun c => !c.isInline)).filterMap
            (fun c => extractBaseMarker pre suf c.body) with
        | nil => simp [hE]
        | cons x xs =>
          rw [List.getLast?_cons_cons]
          cases hy : (x :: xs).getLast? with
          | none => simp at hy
          | some y => simp [hy]
    · rw [if_neg hc]
      simp only [hc, Bool.false_eq_true, if_false]
      exact ih acc


theorem mapLookup_materializeFile_path (heap : List Hunk) (f : PDFile) :
    mapLookup (materializeFile heap f) ("path".toList) = some (.vStr f.path) := rfl

theorem mapLookup_materializeFile_hunks (heap : List Hunk) (f : PDFile) :
    mapLookup (materializeFile heap f) ("hunks".toList)
      = some (.vMapList (f.hunkIds.map (fun id => materializeHunk (heap.getD id ⟨[], []⟩)))) := rfl

theorem mapLookup_materializeHunk_header (h : Hunk) :
    mapLookup (materializeHunk h) ("header".toList) = some (.vStr h.header) := rfl

theorem mapLookup_materializeHunk_lines (h : Hunk) :
    mapLookup (materializeHunk h) ("lines".toList) = some (.vStrList h.lines) := rfl

/-! ## Claim theorems -/

/-- C1: the line-index builder emits exactly one mapping entry per flattened
line; the mapping is the per-hunk concatenation; within a hunk the `k`-th
entry is determined by the parsed header starts with added lines yielding
`{-1, dst}` and advancing only `dst`, deleted lines yielding `{src, -1}` and
advancing only `src`, and other lines yielding `{src, dst}` and advancing
both; and the hunk `@@ -10,3 +20,3 @@` with 3 context lines yields
`{10,20},{11,21},{12,22}`. -/
theorem C1_line_index_builder :
    (∀ hunks : List Hunk,
        (BuildDiffSnippetAndLineMap hunks).2.length
          = (BuildDiffSnippetAndLineMap hunks).1.length)
    ∧ (∀ (h : Hunk) (rest : List Hunk),
        (BuildDiffSnippetAndLineMap (h :: rest)).2
          = (BuildDiffSnippetAndLineMap [h]).2 ++ (BuildDiffSnippetAndLineMap rest).2)
    ∧ (∀ (h : Hunk) (k : Nat), k < h.lines.length →
        (BuildDiffSnippetAndLineMap [h]).2.get? k
          = some (specEntry (parseSrcStart h.header) (parseDestStart h.header) h.lines k))
    ∧ (BuildDiffSnippetAndLineMap
        [⟨"@@ -10,3 +20,3 @@".toList, [" a".toList, " b".toList, " c".toList]⟩]).2
        = [⟨10, 20⟩, ⟨11, 21⟩, ⟨12, 22⟩] := by
  refine ⟨?_, ?_, ?_, by decide⟩
  · intro hunks
    induction hunks with
    | nil => rfl
    | cons h rest ih =>
      simp only [BuildDiffSnippetAndLineMap, List.flatMap_cons, List.length_append] at ih ⊢
      have hb := buildLines_length h.lines (parseSrcStart h.header) (parseDestStart h.header)
      omega
  · intro h rest
    simp [BuildDiffSnippetAndLineMap]
  · intro h k hk
    simpa [BuildDiffSnippetAndLineMap] using
      buildLines_get? h.lines (parseSrcStart h.header) (parseDestStart h.header) k hk

/-- Witness for C1 at a concrete hunk and line index. -/
theorem C1_line_index_builder_witness :
    1 < 2 ∧
      (BuildDiffSnippetAndLineMap [⟨"@@ -5,2 +9,2 @@".toList, ["-x".toList, "+y".toList]⟩]).2.get? 1
        = some (specEntry (parseSrcStart "@@ -5,2 +9,2 @@".toList)
            (parseDestStart "@@ -5,2 +9,2 @@".toList) ["-x".toList, "+y".toList] 1) :=
  ⟨by decide,
   C1_line_index_builder.2.2.1 ⟨"@@ -5,2 +9,2 @@".toList, ["-x".toList, "+y".toList]⟩ 1 (by decide)⟩

/-- C8: header parsing never raises: when either start segment is missing or
non-numeric the corresponding start stays `0`, and the builder still emits one
mapping entry per line (degrades rather than aborting); a fully malformed
header yields the `src = dst = 0` mapping. -/
theorem C8_malformed_header_degrades :
    (∀ header : Str, (splitOnChar '-' header).get? 1 = none → parseSrcStart header = 0)
    ∧ (∀ (header left : Str), (splitOnChar '-' header).get? 1 = some left →
        atoi? (trimSpace (takeUntilAny [' ', ',', '+', '@'] left)) = none →
        parseSrcStart header = 0)
    ∧ (∀ header : Str, (splitOnChar '+' header).get? 1 = none → parseDestStart header = 0)
    ∧ (∀ (header right : Str), (splitOnChar '+' header).get? 1 = some right →
        atoi? (trimSpace (takeUntilChar ',' (takeUntilAny [' ', '@'] right))) = none →
        parseDestStart header = 0)
    ∧ (∀ hunks : List Hunk,
        (BuildDiffSnippetAndLineMap hunks).2.length
          = (hunks.map (fun h => h.lines.length)).sum)
    ∧ (BuildDiffSnippetAndLineMap
        [⟨"a totally malformed header".toList, [" ctx1".toList, " ctx2".toList]⟩]).2
        = [⟨0, 0⟩, ⟨1, 1⟩] := by
  refine ⟨?_, ?_, ?_, ?_, ?_, by decide⟩
  · intro header h
    unfold parseSrcStart
    rw [h]
  · intro header left h1 h2
    unfold parseSrcStart
    rw [h1]
    simp [h2]
  · intro header h
    unfold parseDestStart
    rw [h]
  · intro header right h1 h2
    unfold parseDestStart
    rw [h1]
    simp [h2]
  · intro hunks
    induction hunks with
    | nil => rfl
    | cons h rest ih =>
      simp only [BuildDiffSnippetAndLineMap, List.flatMap_cons, List.length_append,
        List.map_cons, List.sum_cons] at ih ⊢
      have hb := buildLines_length h.lines (parseSrcStart h.header) (parseDestStart h.header)
      omega

/-- Witness for C8 at concrete malformed headers. -/
theorem C8_malformed_header_degrades_witness :
    ((splitOnChar '-' ("no dashes here".toList)).get? 1 = none
      ∧ parseSrcStart ("no dashes here".toList) = 0)
    ∧ ((splitOnChar '-' ("@@ -x,3 +y @@".toList)).get? 1 = some ("x,3 +y @@".toList)
      ∧ atoi? (trimSpace (takeUntilAny [' ', ',', '+', '@'] ("x,3 +y @@".toList))) = none
      ∧ parseSrcStart ("@@ -x,3 +y @@".toList) = 0)
    ∧ ((splitOnChar '+' ("no plus".toList)).get? 1 = none
      ∧ parseDestStart ("no plus".toList) = 0)
    ∧ ((splitOnChar '+' ("@@ -1,3 +y @@".toList)).get? 1 = some ("y @@".toList)
      ∧ atoi? (trimSpace (takeUntilChar ',' (takeUntilAny [' ', '@'] ("y @@".toList)))) = none
      ∧ parseDestStart ("@@ -1,3 +y @@".toList) = 0) :=
  ⟨⟨by decide, C8_malformed_header_degrades.1 ("no dashes here".toList) (by decide)⟩,
   ⟨by decide, by decide,
    C8_malformed_header_degrades.2.1 ("@@ -x,3 +y @@".toList) ("x,3 +y @@".toList)
      (by decide) (by decide)⟩,
   ⟨by decide, C8_malformed_header_degrades.2.2.1 ("no plus".toList) (by decide)⟩,
   ⟨by decide, by decide,
    C8_malformed_header_degrades.2.2.2.1 ("@@ -1,3 +y @@".toList) ("y @@".toList)
      (by decide) (by decide)⟩⟩

/-- C2: the resolver zeroes out (hence never forwards) a reported position
outside `1..len(mapping)` and a position whose mapping entry has
`toLine ≤ 0`; otherwise it sets the position to the entry's `toLine` (and the
path and `fromLine` accordingly); the posting gate never emits a zeroed
candidate; and a position pointing at a `'-'`-prefixed (deleted) line is
always zeroed. -/
theorem C2_position_resolver :
    (∀ (filePath : Str) (lineMap : List DiffLineMapping) (c : ReviewComment),
        c.position < 1 ∨ (lineMap.length : Int) < c.position →
        (mapPosition filePath lineMap c).position = 0)
    ∧ (∀ (filePath : Str) (lineMap : List DiffLineMapping) (c : ReviewComment)
          (entry : DiffLineMapping),
        1 ≤ c.position → c.position ≤ (lineMap.length : Int) →
        lineMap.get? (c.position - 1).toNat = some entry →
        ((entry.toLine ≤ 0 → (mapPosition filePath lineMap c).position = 0)
          ∧ (0 < entry.toLine →
              mapPosition filePath lineMap c
                = { c with path := filePath, position := entry.toLine,
                           fromLine := entry.fromLine })))
    ∧ (∀ (remaining : Int) (cands : List ReviewComment) (existing : List Str)
          (posted : Int) (c : ReviewComment),
        c ∈ gateLoop remaining cands existing posted → 0 < c.position)
    ∧ (∀ (filePath : Str) (c : ReviewComment) (s d : Int) (lines : List Str) (k : Nat),
        k < lines.length → hasPrefix (lines.getD k []) ['-'] = true →
        (mapPosition filePath (buildLines s d lines)
          { c with position := (k : Int) + 1 }).position = 0) := by
  refine ⟨?_, ?_, ?_, ?_⟩
  · intro filePath lineMap c hc
    unfold mapPosition
    split_ifs with h1
    · rfl
    · simp only [Bool.or_eq_true, decide_eq_true_eq, not_or, not_le] at h1
      omega
  · intro filePath lineMap c entry h1 h2 hget
    have heq := mapPosition_of_get? filePath lineMap c entry h1 h2 hget
    constructor
    · intro hto
      rw [heq, if_pos hto]
    · intro hto
      rw [heq, if_neg (by omega)]
  · intro remaining cands existing posted c h
    exact (gateLoop_mem_props remaining cands existing posted c h).2.2.2.1
  · intro filePath c s d lines k hk hdel
    have hplus : hasPrefix (lines.getD k []) ['+'] = false := hasPrefix_minus_not_plus hdel
    have hlen := buildLines_length lines s d
    have hentryTo : (specEntry s d lines k).toLine = -1 := by
      simp only [specEntry]
      rw [hplus, hdel]
      simp
    set c' : ReviewComment := { c with position := (k : Int) + 1 } with hc'
    have h1 : 1 ≤ c'.position := by simp [hc']
    have h2 : c'.position ≤ ((buildLines s d lines).length : Int) := by
      simp [hc', hlen]; omega
    have hget : (buildLines s d lines).get? (c'.position - 1).toNat
        = some (specEntry s d lines k) := by
      have : (c'.position - 1).toNat = k := by simp [hc']
      rw [this]
      exact buildLines_get? lines s d k hk
    rw [mapPosition_of_get? filePath (buildLines s d lines) c' (specEntry s d lines k)
      h1 h2 hget, if_pos (by omega)]

/-- Witness for C2 at a concrete mapping and comment. -/
theorem C2_position_resolver_witness :
    ((⟨"b".toList, "f.go".toList, 9, [], 0⟩ : ReviewComment).position < 1
        ∨ (([⟨5, -1⟩, ⟨-1, 7⟩] : List DiffLineMapping).length : Int)
            < (⟨"b".toList, "f.go".toList, 9, [], 0⟩ : ReviewComment).position)
    ∧ (mapPosition ("f.go".toList) [⟨5, -1⟩, ⟨-1, 7⟩]
        ⟨"b".toList, "f.go".toList, 9, [], 0⟩).position = 0
    ∧ (0 < 1 ∧ hasPrefix (["-gone".toList].getD 0 []) ['-'] = true
        ∧ (mapPosition ("f.go".toList) (buildLines 5 5 ["-gone".toList])
            ({ body := "b".toList, path := [], position := (0 : Int) + 1,
               anchor := [], fromLine := 0 } : ReviewComment)).position = 0) :=
  ⟨by decide,
   C2_position_resolver.1 ("f.go".toList) [⟨5, -1⟩, ⟨-1, 7⟩]
     ⟨"b".toList, "f.go".toList, 9, [], 0⟩ (by decide),
   by decide, by decide,
   C2_position_resolver.2.2.2 ("f.go".toList)
     ⟨"b".toList, [], 1, [], 0⟩ 5 5 ["-gone".toList] 0 (by decide) (by decide)⟩

/-- C4: the gate never accepts more than
`remaining = min(maxInline - |existingKeys|, maxTotal - totalAlreadyPosted)`
comments, emits nothing at all when `remaining ≤ 0`, and in particular with
`maxInline = 2`, two pre-existing keys and 5 fresh candidates the output is
empty. -/
theorem C4_comment_caps :
    (∀ (maxInline maxTotal totalAlreadyPosted : Int) (existing : List Str)
        (cands : List ReviewComment),
        0 < maxInline → 0 < maxTotal →
        ((ensureInlineGate maxInline maxTotal totalAlreadyPosted existing cands).length : Int)
            ≤ max 0 (min (maxInline - (existing.length : Int))
                (maxTotal - totalAlreadyPosted))
          ∧ (min (maxInline - (existing.length : Int)) (maxTotal - totalAlreadyPosted) ≤ 0 →
              ensureInlineGate maxInline maxTotal totalAlreadyPosted existing cands = []))
    ∧ ensureInlineGate 2 200 0 ["a.go:1".toList, "b.go:2".toList]
        [⟨"one".toList, "c.go".toList, 1, [], 0⟩,
         ⟨"two".toList, "c.go".toList, 2, [], 0⟩,
         ⟨"three".toList, "c.go".toList, 3, [], 0⟩,
         ⟨"four".toList, "c.go".toList, 4, [], 0⟩,
         ⟨"five".toList, "c.go".toList, 5, [], 0⟩] = [] := by
  constructor
  · intro maxInline maxTotal total existing cands hI hT
    have hIe : ¬ maxInline ≤ 0 := by omega
    have hTe : ¬ maxTotal ≤ 0 := by omega
    simp only [ensureInlineGate, if_neg hIe, if_neg hTe]
    constructor
    · split_ifs with g1 g2
      · simp
      · simp
      · set M := min (maxInline - (existing.length : Int)) (maxTotal - total) with hMdef
        have hM : 0 < M := lt_min (by omega) (by omega)
        have h2 := gateLoop_length M cands existing 0
        rw [max_eq_right hM.le]
        omega
    · intro hrem
      split_ifs with g1 g2
      · rfl
      · rfl
      · exfalso
        have hM : 0 < min (maxInline - (existing.length : Int)) (maxTotal - total) :=
          lt_min (by omega) (by omega)
        exact absurd hrem (not_le.mpr hM)
  · decide

/-- Witness for C4 at concrete caps and candidates. -/
theorem C4_comment_caps_witness :
    (0 : Int) < 3 ∧ (0 : Int) < 4 ∧
      (((ensureInlineGate 3 4 2 ["k1".toList]
            [⟨"alpha body".toList, "a.go".toList, 1, [], 0⟩,
             ⟨"beta body".toList, "a.go".toList, 2, [], 0⟩,
             ⟨"gamma body".toList, "a.go".toList, 3, [], 0⟩]).length : Int)
          ≤ max 0 (min ((3 : Int) - 1) ((4 : Int) - 2))
        ∧ (min ((3 : Int) - 1) ((4 : Int) - 2) ≤ 0 →
            ensureInlineGate 3 4 2 ["k1".toList]
              [⟨"alpha body".toList, "a.go".toList, 1, [], 0⟩,
               ⟨"beta body".toList, "a.go".toList, 2, [], 0⟩,
               ⟨"gamma body".toList, "a.go".toList, 3, [], 0⟩] = [])) :=
  ⟨by decide, by decide, by
    have := C4_comment_caps.1 3 4 2 ["k1".toList]
      [⟨"alpha body".toList, "a.go".toList, 1, [], 0⟩,
       ⟨"beta body".toList, "a.go".toList, 2, [], 0⟩,
       ⟨"gamma body".toList, "a.go".toList, 3, [], 0⟩] (by decide) (by decide)
    simpa using this⟩

/-- C5: the gate processes candidates in arrival order, skips empty or
command-like bodies, skips candidates whose `path:position` key is already
known, records accepted keys so run-local duplicates are also skipped (the
emitted keys are distinct and fresh), and the output preserves the relative
order of the input; with no pre-existing keys and candidate #2 duplicating
candidate #1's key only #1 and #3 survive, in order. -/
theorem C5_gate_dedup_order :
    (∀ (maxInline maxTotal total : Int) (existing : List Str)
        (cands : List ReviewComment),
        (ensureInlineGate maxInline maxTotal total existing cands).Sublist cands
        ∧ (∀ c ∈ ensureInlineGate maxInline maxTotal total existing cands,
            c.body ≠ [] ∧ LooksLikeCommand c.body = false)
        ∧ (∀ c ∈ ensureInlineGate maxInline maxTotal total existing cands,
            commentKey c ∉ existing)
        ∧ ((ensureInlineGate maxInline maxTotal total existing cands).map commentKey).Nodup)
    ∧ ensureInlineGate 5 200 0 []
        [⟨"first body".toList, "a.go".toList, 3, [], 0⟩,
         ⟨"second body same spot".toList, "a.go".toList, 3, [], 0⟩,
         ⟨"third body".toList, "b.go".toList, 7, [], 0⟩]
        = [⟨"first body".toList, "a.go".toList, 3, [], 0⟩,
           ⟨"third body".toList, "b.go".toList, 7, [], 0⟩] := by
  constructor
  · intro maxInline maxTotal total existing cands
    simp only [ensureInlineGate]
    split_ifs <;>
      first
        | exact ⟨List.nil_sublist _, by simp, by simp, by simp⟩
        | exact ⟨gateLoop_sublist _ cands existing 0,
            fun c hc => ⟨(gateLoop_mem_props _ cands existing 0 c hc).1,
                         (gateLoop_mem_props _ cands existing 0 c hc).2.1⟩,
            fun c hc => (gateLoop_mem_props _ cands existing 0 c hc).2.2.2.2,
            gateLoop_keys_nodup _ cands existing 0⟩
  · decide

/-- Witness for C5 at concrete candidates and a pre-existing key. -/
theorem C5_gate_dedup_order_witness :
    ((ensureInlineGate 5 200 0 ["a.go:3".toList]
        [⟨"first body".toList, "a.go".toList, 3, [], 0⟩,
         ⟨"third body".toList, "b.go".toList, 7, [], 0⟩]).Sublist
        [⟨"first body".toList, "a.go".toList, 3, [], 0⟩,
         ⟨"third body".toList, "b.go".toList, 7, [], 0⟩])
      ∧ (∀ c ∈ ensureInlineGate 5 200 0 ["a.go:3".toList]
            [⟨"first body".toList, "a.go".toList, 3, [], 0⟩,
             ⟨"third body".toList, "b.go".toList, 7, [], 0⟩],
          commentKey c ∉ ["a.go:3".toList]) :=
  ⟨(C5_gate_dedup_order.1 5 200 0 ["a.go:3".toList]
      [⟨"first body".toList, "a.go".toList, 3, [], 0⟩,
       ⟨"third body".toList, "b.go".toList, 7, [], 0⟩]).1,
   (C5_gate_dedup_order.1 5 200 0 ["a.go:3".toList]
      [⟨"first body".toList, "a.go".toList, 3, [], 0⟩,
       ⟨"third body".toList, "b.go".toList, 7, [], 0⟩]).2.2.1⟩

/-- C3: with a non-empty anchor and non-empty flattened lines, the search
normalizes the anchor, equals the first match of the spec's expanding order
(clamped hint, then hint-1, hint+1, hint-2, hint+2, ...), returns -1 exactly
when no normalized line contains the normalized anchor, any found index
matches, and the caller overrides the position with index+1 on a find and
leaves it unchanged otherwise; a hint of reported position 3 with the only
matching line at flattened position 7 resolves to 7. -/
theorem C3_anchor_search :
    (∀ (diffLines : List Str) (anchor : Str) (hintIdx : Int),
        diffLines ≠ [] → anchor ≠ [] →
        NearestMatchingLineIndex diffLines anchor hintIdx
          = firstMatchIdx diffLines (normAnchorOf anchor)
              (specSearchOrder diffLines.length (clampHint hintIdx diffLines.length)))
    ∧ (∀ (diffLines : List Str) (anchor : Str) (hintIdx : Int),
        diffLines ≠ [] → anchor ≠ [] →
        (NearestMatchingLineIndex diffLines anchor hintIdx = -1 ↔
          ∀ i < diffLines.length, matchAt diffLines (normAnchorOf anchor) i = false))
    ∧ (∀ (diffLines : List Str) (anchor : Str) (hintIdx i : Int),
        NearestMatchingLineIndex diffLines anchor hintIdx = i → 0 ≤ i →
        matchAt diffLines (normAnchorOf anchor) i.toNat = true)
    ∧ (∀ (allLines : List Str) (lineMapLen : Nat) (c : ReviewComment),
        c.anchor ≠ [] →
        (NearestMatchingLineIndex allLines c.anchor (c.position - 1) = -1 →
          applyAnchor allLines lineMapLen c = c)
        ∧ (∀ i : Int,
            NearestMatchingLineIndex allLines c.anchor (c.position - 1) = i →
            0 ≤ i → i < (lineMapLen : Int) →
            (applyAnchor allLines lineMapLen c).position = i + 1))
    ∧ (applyAnchor
        ["line one".toList, "line two".toList, "line three".toList, "line four".toList,
         "line five".toList, "line six".toList, "+ the target line".toList,
         "line eight".toList]
        8 ⟨"b".toList, "f.go".toList, 3, "target".toList, 0⟩).position = 7 := by
  refine ⟨?_, ?_, ?_, ?_, by decide⟩
  · exact nearest_eq_firstMatch
  · intro diffLines anchor hintIdx hdl hanchor
    have hn : 0 < diffLines.length := List.length_pos.mpr hdl
    have hhint := clampHint_lt hintIdx diffLines.length hn
    rw [nearest_eq_firstMatch diffLines anchor hintIdx hdl hanchor,
      firstMatchIdx_neg_one_iff]
    constructor
    · intro hall i hi
      have hmem := mem_specSearchOrder hi hhint
      have := hall (i : Int) hmem
      simp only [Bool.and_eq_false_iff, decide_eq_false_iff_not, not_le, not_lt] at this
      rcases this with hb | hm
      · rcases hb with hb1 | hb2
        · omega
        · exfalso
          exact absurd (by exact_mod_cast hi) (by omega)
      · simpa using hm
    · intro hall j hj
      by_cases hbound : (0 ≤ j ∧ j < (diffLines.length : Int))
      · have hjn : j.toNat < diffLines.length := by omega
        have := hall j.toNat hjn
        simp only [Bool.and_eq_false_iff]
        right
        exact this
      · simp only [Bool.and_eq_false_iff]
        left
        rcases not_and_or.mp hbound with hb | hb
        · left; simpa using hb
        · right; simpa using hb
  · intro diffLines anchor hintIdx i hres h0
    by_cases hdl : diffLines = []
    · subst hdl
      simp [NearestMatchingLineIndex] at hres
      omega
    · by_cases hanchor : anchor = []
      · subst hanchor
        simp [NearestMatchingLineIndex] at hres
        omega
      · rw [nearest_eq_firstMatch diffLines anchor hintIdx hdl hanchor] at hres
        have := firstMatchIdx_found diffLines (normAnchorOf anchor) _ i hres h0
        simp only [Bool.and_eq_true] at this
        exact this.2
  · intro allLines lineMapLen c hanchor
    constructor
    · intro hm1
      unfold applyAnchor
      rw [if_pos hanchor]
      simp only [hm1]
      norm_num
    · intro i hmi h0 hlt
      unfold applyAnchor
      rw [if_pos hanchor]
      simp only [hmi]
      have hc : (decide (0 ≤ i) && decide (i < (lineMapLen : Int))) = true := by
        simp only [Bool.and_eq_true, decide_eq_true_eq]
        exact ⟨h0, hlt⟩
      rw [hc]
      simp

/-- Witness for C3 at concrete lines, anchor and hint. -/
theorem C3_anchor_search_witness :
    (["ctx a".toList, "+needle here".toList] : List Str) ≠ [] ∧
      ("needle".toList : Str) ≠ [] ∧
      NearestMatchingLineIndex ["ctx a".toList, "+needle here".toList] "needle".toList 0
        = firstMatchIdx ["ctx a".toList, "+needle here".toList]
            (normAnchorOf "needle".toList)
            (specSearchOrder 2 (clampHint 0 2)) :=
  ⟨by decide, by decide,
   C3_anchor_search.1 ["ctx a".toList, "+needle here".toList] "needle".toList 0
     (by decide) (by decide)⟩

/-- C6 (spec-modelled): `pauseRequested` is true exactly when some non-inline
comment without the bot marker contains the case-insensitive substring
"lgtm", and a paused PR posts neither summary nor inline review; a PR with a
human "LGTM" comment and a bot inline comment is paused. -/
theorem C6_lgtm_pause :
    (∀ (comments : List RawComment) (botMarker pre suf : Str),
        ((deriveState comments botMarker pre suf).pauseRequested = true ↔
          ∃ c ∈ comments, c.isInline = false ∧ containsSub c.body botMarker = false
            ∧ containsCI c.body ("lgtm".toList) = true))
    ∧ (∀ (comments : List RawComment) (botMarker pre suf : Str) (hasInlineAlready : Bool),
        (deriveState comments botMarker pre suf).pauseRequested = true →
          runPostsSummary (deriveState comments botMarker pre suf) = false
          ∧ runPostsInline (deriveState comments botMarker pre suf) hasInlineAlready = false)
    ∧ (deriveState
        [⟨"LGTM".toList, false, [], 0⟩,
         ⟨"<!-- auto-review-bot --> inline review body".toList, true, "a.go".toList, 3⟩]
        ("<!-- auto-review-bot -->".toList)
        ("<!-- auto-review-base:".toList) (" -->".toList)).pauseRequested = true := by
  refine ⟨?_, ?_, by decide⟩
  · intro comments botMarker pre suf
    simp only [deriveState, pauseRequestedOf, List.any_eq_true, Bool.and_eq_true,
      Bool.not_eq_true']
    constructor
    · rintro ⟨c, hc, ⟨hni, hnb⟩, hl⟩
      exact ⟨c, hc, hni, hnb, hl⟩
    · rintro ⟨c, hc, hni, hnb, hl⟩
      exact ⟨c, hc, ⟨hni, hnb⟩, hl⟩
  · intro comments botMarker pre suf hasInlineAlready hp
    unfold runPostsSummary runPostsInline
    rw [hp]
    simp

/-- Witness for C6 at a concrete paused comment list. -/
theorem C6_lgtm_pause_witness :
    ((deriveState [⟨"looks good, lgtm!".toList, false, [], 0⟩]
        ("<!-- auto-review-bot -->".toList)
        ("<!-- auto-review-base:".toList) (" -->".toList)).pauseRequested = true ↔
      ∃ c ∈ [(⟨"looks good, lgtm!".toList, false, [], 0⟩ : RawComment)],
        c.isInline = false
          ∧ containsSub c.body ("<!-- auto-review-bot -->".toList) = false
          ∧ containsCI c.body ("lgtm".toList) = true) ∧
    (runPostsSummary (deriveState [⟨"looks good, lgtm!".toList, false, [], 0⟩]
        ("<!-- auto-review-bot -->".toList)
        ("<!-- auto-review-base:".toList) (" -->".toList)) = false
      ∧ runPostsInline (deriveState [⟨"looks good, lgtm!".toList, false, [], 0⟩]
          ("<!-- auto-review-bot -->".toList)
          ("<!-- auto-review-base:".toList) (" -->".toList)) false = false) :=
  ⟨C6_lgtm_pause.1 [⟨"looks good, lgtm!".toList, false, [], 0⟩]
     ("<!-- auto-review-bot -->".toList)
     ("<!-- auto-review-base:".toList) (" -->".toList),
   C6_lgtm_pause.2.1 [⟨"looks good, lgtm!".toList, false, [], 0⟩]
     ("<!-- auto-review-bot -->".toList)
     ("<!-- auto-review-base:".toList) (" -->".toList) false (by decide)⟩

/-- C7 (spec-modelled): a comment contributes an existing-inline key exactly
when it is inline and its body contains the bot marker, the key being
`path + ":" + toLine`; a human inline comment without the marker contributes
nothing. -/
theorem C7_bot_inline_keys :
    (∀ (comments : List RawComment) (botMarker key : Str),
        key ∈ existingInlineKeysOf comments botMarker ↔
          ∃ c ∈ comments, c.isInline = true ∧ containsSub c.body botMarker = true
            ∧ key = rawCommentKey c)
    ∧ (∀ (comments : List RawComment) (botMarker pre suf : Str),
        (deriveState comments botMarker pre suf).existingInlineKeys
          = existingInlineKeysOf comments botMarker)
    ∧ existingInlineKeysOf [⟨"human inline remark".toList, true, "a.go".toList, 3⟩]
        ("<!-- auto-review-bot -->".toList) = []
    ∧ existingInlineKeysOf
        [⟨"bot remark <!-- auto-review-bot -->".toList, true, "a.go".toList, 3⟩]
        ("<!-- auto-review-bot -->".toList) = ["a.go:3".toList] := by
  refine ⟨?_, fun _ _ _ _ => rfl, by decide, by decide⟩
  intro comments botMarker key
  simp only [existingInlineKeysOf, List.mem_map, List.mem_filter,
    isBotInlineComment, Bool.and_eq_true]
  constructor
  · rintro ⟨c, ⟨hc, hin, hm⟩, hkey⟩
    exact ⟨c, hc, hin, hm, hkey.symm⟩
  · rintro ⟨c, hc, hin, hm, hkey⟩
    exact ⟨c, ⟨hc, hin, hm⟩, hkey.symm⟩

/-- Witness for C7 at a concrete bot inline comment. -/
theorem C7_bot_inline_keys_witness :
    ("a.go:3".toList : Str) ∈ existingInlineKeysOf
        [⟨"bot remark <!-- auto-review-bot -->".toList, true, "a.go".toList, 3⟩]
        ("<!-- auto-review-bot -->".toList) ↔
      ∃ c ∈ [(⟨"bot remark <!-- auto-review-bot -->".toList, true, "a.go".toList, 3⟩ : RawComment)],
        c.isInline = true
          ∧ containsSub c.body ("<!-- auto-review-bot -->".toList) = true
          ∧ ("a.go:3".toList : Str) = rawCommentKey c :=
  C7_bot_inline_keys.1
    [⟨"bot remark <!-- auto-review-bot -->".toList, true, "a.go".toList, 3⟩]
    ("<!-- auto-review-bot -->".toList) ("a.go:3".toList)

/-- C9 (spec-modelled): the derived last-reviewed hash is the last base-commit
marker in scan order over non-inline comments; two summary comments carrying
`abc123` then `def456` yield `def456`. -/
theorem C9_last_marker_wins :
    (∀ (comments : List RawComment) (pre suf : Str),
        lastReviewedCommitHashOf comments pre suf
          = ((comments.filter (fun c => !c.isInline)).filterMap
              (fun c => extractBaseMarker pre suf c.body)).getLast?)
    ∧ (∀ (comments : List RawComment) (botMarker pre suf : Str),
        (deriveState comments botMarker pre suf).lastReviewedCommitHash
          = lastReviewedCommitHashOf comments pre suf)
    ∧ lastReviewedCommitHashOf
        [⟨"Summary by Nim <!-- auto-review-base:abc123 -->".toList, false, [], 0⟩,
         ⟨"Summary by Nim <!-- auto-review-base:def456 -->".toList, false, [], 0⟩]
        ("<!-- auto-review-base:".toList) (" -->".toList)
        = some ("def456".toList) := by
  refine ⟨?_, fun _ _ _ _ => rfl, by decide⟩
  intro comments pre suf
  unfold lastReviewedCommitHashOf
  rw [lastReviewedFold_or pre suf comments none]
  exact Option.or_none

/-- C10: every file record produced by `ParseDiff` carries a `"path"` key
holding a string and a `"hunks"` key holding a list of hunk records, each with
a `"header"` string and a `"lines"` list of strings, so the handler's
unchecked type assertions on the parser's output never fail. -/
theorem C10_parsediff_shape :
    ∀ (diff : Str) (fm : GoMap), fm ∈ ParseDiff diff →
      (∃ p, mapLookup fm ("path".toList) = some (.vStr p))
      ∧ (∃ hs, mapLookup fm ("hunks".toList) = some (.vMapList hs)
          ∧ ∀ hm ∈ hs,
              (∃ hd, mapLookup hm ("header".toList) = some (.vStr hd))
              ∧ (∃ ls, mapLookup hm ("lines".toList) = some (.vStrList ls))) := by
  intro diff fm hfm
  simp only [ParseDiff] at hfm
  rcases List.mem_map.mp hfm with ⟨f, hf, rfl⟩
  refine ⟨⟨f.path, mapLookup_materializeFile_path _ _⟩,
    ⟨_, mapLookup_materializeFile_hunks _ _, ?_⟩⟩
  intro hm hhm
  rcases List.mem_map.mp hhm with ⟨id, hid, rfl⟩
  exact ⟨⟨_, mapLookup_materializeHunk_header _⟩, ⟨_, mapLookup_materializeHunk_lines _⟩⟩

/-- Witness for C10 at a concrete two-line diff. -/
theorem C10_parsediff_shape_witness :
    (∃ p, mapLookup
        (materializeFile [⟨"@@ -1,2 +1,2 @@".toList, [" ctx".toList, "+add".toList]⟩]
          ⟨"f.go".toList, [0]⟩) ("path".toList) = some (.vStr p))
    ∧ (∃ hs, mapLookup
          (materializeFile [⟨"@@ -1,2 +1,2 @@".toList, [" ctx".toList, "+add".toList]⟩]
            ⟨"f.go".toList, [0]⟩) ("hunks".toList) = some (.vMapList hs)
        ∧ ∀ hm ∈ hs,
            (∃ hd, mapLookup hm ("header".toList) = some (.vStr hd))
            ∧ (∃ ls, mapLookup hm ("lines".toList) = some (.vStrList ls))) :=
  C10_parsediff_shape
    ("diff --git a/f.go b/f.go\n+++ b/f.go\n@@ -1,2 +1,2 @@\n ctx\n+add".toList)
    (materializeFile [⟨"@@ -1,2 +1,2 @@".toList, [" ctx".toList, "+add".toList]⟩]
      ⟨"f.go".toList, [0]⟩)
    (by
      have h : ParseDiff
          ("diff --git a/f.go b/f.go\n+++ b/f.go\n@@ -1,2 +1,2 @@\n ctx\n+add".toList)
          = [materializeFile [⟨"@@ -1,2 +1,2 @@".toList, [" ctx".toList, "+add".toList]⟩]
              ⟨"f.go".toList, [0]⟩] := rfl
      rw [h]
      exact List.mem_singleton.mpr rfl)

end CodeNim
